import Mathlib

/-!
Verification development for the SecureHealth federated-learning core:
the hash-chained ledger (`blockchain_ledger.py`), the secure-aggregation
engine (`smpc_engine.py`) and the coordination layer
(`federated_learning.py`).  Python code is shallowly embedded: machine
integers become `Nat`/`Int`, Python floats become `ℚ` (every concrete
value appearing in the claims is exactly representable and all operations
performed on them are exact in IEEE double precision, so the rational
model agrees with the Python float results on those inputs), dictionaries
become ordered association lists, fallible code returns `Except`/`Option`,
and sources of nondeterminism (clock, RNG, cipher IV) become explicit
parameters.
-/

set_option maxRecDepth 40000
set_option maxHeartbeats 4000000

namespace SecureHealth

/-! ### SHA-256 (`hashlib.sha256(...).hexdigest()`), FIPS 180-4, over byte lists -/

def w32 (x : Nat) : Nat := x % 4294967296

def rotr (n x : Nat) : Nat := w32 ((x >>> n) ||| (x <<< (32 - n)))

def shaK : List Nat :=
  [1116352408, 1899447441, 3049323471, 3921009573, 961987163,
   1508970993, 2453635748, 2870763221, 3624381080, 310598401,
   607225278, 1426881987, 1925078388, 2162078206, 2614888103,
   3248222580, 3835390401, 4022224774, 264347078, 604807628,
   770255983, 1249150122, 1555081692, 1996064986, 2554220882,
   2821834349, 2952996808, 3210313671, 3336571891, 3584528711,
   113926993, 338241895, 666307205, 773529912, 1294757372,
   1396182291, 1695183700, 1986661051, 2177026350, 2456956037,
   2730485921, 2820302411, 3259730800, 3345764771, 3516065817,
   3600352804, 4094571909, 275423344, 430227734, 506948616,
   659060556, 883997877, 958139571, 1322822218, 1537002063,
   1747873779, 1955562222, 2024104815, 2227730452, 2361852424,
   2428436474, 2756734187, 3204031479, 3329325298]

def shaH0 : List Nat :=
  [1779033703, 3144134277, 1013904242, 2773480762,
   1359893119, 2600822924, 528734635, 1541459225]

def wAt (l : List Nat) (i : Nat) : Nat := l.getD i 0

/-- Extend the 16 message words of a chunk to the 64-word schedule. -/
def extendWords (w16 : List Nat) : List Nat :=
  (List.range 48).foldl
    (fun w i =>
      let t := i + 16
      let x15 := wAt w (t - 15)
      let x2 := wAt w (t - 2)
      let s0 := (rotr 7 x15) ^^^ (rotr 18 x15) ^^^ (x15 >>> 3)
      let s1 := (rotr 17 x2) ^^^ (rotr 19 x2) ^^^ (x2 >>> 10)
      w ++ [w32 (wAt w (t - 16) + s0 + wAt w (t - 7) + s1)])
    w16

/-- One round of the SHA-256 compression function. -/
def shaRound (st : Nat × Nat × Nat × Nat × Nat × Nat × Nat × Nat) (kw : Nat × Nat) :
    Nat × Nat × Nat × Nat × Nat × Nat × Nat × Nat :=
  let (a, b, c, d, e, f, g, h) := st
  let s1 := (rotr 6 e) ^^^ (rotr 11 e) ^^^ (rotr 25 e)
  let ch := (e &&& f) ^^^ ((e ^^^ 0xffffffff) &&& g)
  let t1 := w32 (h + s1 + ch + kw.1 + kw.2)
  let s0 := (rotr 2 a) ^^^ (rotr 13 a) ^^^ (rotr 22 a)
  let mj := (a &&& b) ^^^ (a &&& c) ^^^ (b &&& c)
  let t2 := w32 (s0 + mj)
  (w32 (t1 + t2), a, b, c, w32 (d + t1), e, f, g)

/-- Compress one 64-word schedule into the running hash state. -/
def compressChunk (h : List Nat) (w : List Nat) : List Nat :=
  let init : Nat × Nat × Nat × Nat × Nat × Nat × Nat × Nat :=
    (wAt h 0, wAt h 1, wAt h 2, wAt h 3, wAt h 4, wAt h 5, wAt h 6, wAt h 7)
  let (a, b, c, d, e, f, g, hh) := (shaK.zip w).foldl shaRound init
  [w32 (wAt h 0 + a), w32 (wAt h 1 + b), w32 (wAt h 2 + c), w32 (wAt h 3 + d),
   w32 (wAt h 4 + e), w32 (wAt h 5 + f), w32 (wAt h 6 + g), w32 (wAt h 7 + hh)]

/-- Big-endian bytes of `n` over `k` bytes. -/
def beBytes (k n : Nat) : List Nat :=
  (List.range k).map (fun i => (n >>> (8 * (k - 1 - i))) % 256)

/-- SHA-256 padding: append 0x80, zeros to 56 mod 64, then the 64-bit bit length. -/
def shaPad (msg : List Nat) : List Nat :=
  let len := msg.length
  let zeros := (64 + 55 - (len % 64)) % 64
  msg ++ [0x80] ++ List.replicate zeros 0 ++ beBytes 8 (8 * len)

/-- Split a list into chunks of `n` (length assumed a multiple of `n`). -/
def chunks (n : Nat) (l : List Nat) : List (List Nat) :=
  (List.range (l.length / n)).map (fun i => (l.drop (n * i)).take n)

/-- Pack 4 consecutive bytes into big-endian 32-bit words. -/
def packWords (bytes : List Nat) : List Nat :=
  (chunks 4 bytes).map (fun b => wAt b 0 * 16777216 + wAt b 1 * 65536 + wAt b 2 * 256 + wAt b 3)

def sha256Words (msg : List Nat) : List Nat :=
  (chunks 64 (shaPad msg)).foldl (fun h c => compressChunk h (extendWords (packWords c))) shaH0

def hexChar (n : Nat) : Char :=
  if n < 10 then Char.ofNat (48 + n) else Char.ofNat (87 + n)

/-- Lowercase hex of one 32-bit word (8 hex digits). -/
def wordHex (n : Nat) : List Char :=
  (List.range 8).map (fun i => hexChar ((n >>> (4 * (7 - i))) % 16))

/-- `hashlib.sha256(msg).hexdigest()` for a byte string `msg`. -/
def sha256Hex (msg : List Nat) : String :=
  ⟨(sha256Words msg).flatMap wordHex⟩

/-- `str.encode()` for ASCII text (every string this system hashes is ASCII). -/
def strBytes (s : String) : List Nat := s.data.map Char.toNat

example : sha256Hex (strBytes "abc") =
    "ba7816bf8f01cfea414140de5dae2223b00361a396177a9cb410ff61f20015ad" := by rfl

example : sha256Hex [] =
    "e3b0c44298fc1c149afbf4c8996fb92427ae41e4649b934ca495991b7852b855" := by rfl

/-! ### The blockchain ledger (`blockchain_ledger.py`)

Blocks and transactions are Python dicts with a fixed key set; they are
embedded as structures.  `datetime.utcnow().isoformat()` results are
explicit `String` parameters.  The `while` loop of `_proof_of_work` is
embedded with explicit fuel (`none` = the loop is still searching). -/

structure Transaction where
  modelHash : String
  userId : Nat
  institution : String
  timestamp : String
  transactionHash : String
deriving Repr, DecidableEq, Inhabited

structure Block where
  blockNumber : Nat
  timestamp : String
  transactions : List Transaction
  previousHash : String
  hash : String
  nonce : Nat
deriving Repr, DecidableEq, Inhabited

/-- JSON string escaping as `json.dumps` performs it on ASCII text. -/
def jsonEscape (s : String) : String :=
  ⟨s.data.flatMap fun c =>
    if c = '"' then ['\\', '"']
    else if c = '\\' then ['\\', '\\']
    else if c.toNat < 32 then ['\\', 'u', '0', '0', hexChar (c.toNat / 16), hexChar (c.toNat % 16)]
    else [c]⟩

def jstr (s : String) : String := "\"" ++ jsonEscape s ++ "\""

/-- `json.dumps(transaction, sort_keys=True)`: keys in sorted order with
the default `(", ", ": ")` separators. -/
def jsonOfTransaction (t : Transaction) : String :=
  "\x7b\"institution\": " ++ jstr t.institution ++
  ", \"model_hash\": " ++ jstr t.modelHash ++
  ", \"timestamp\": " ++ jstr t.timestamp ++
  ", \"transaction_hash\": " ++ jstr t.transactionHash ++
  ", \"user_id\": " ++ toString t.userId ++ "\x7d"

/-- `json.dumps(block_copy, sort_keys=True, default=str)` where
`block_copy` is the block with its `hash` key popped (`_calculate_hash`
removes it before serializing), so `hash` is deliberately absent. -/
def jsonOfBlock (b : Block) : String :=
  "\x7b\"block_number\": " ++ toString b.blockNumber ++
  ", \"nonce\": " ++ toString b.nonce ++
  ", \"previous_hash\": " ++ jstr b.previousHash ++
  ", \"timestamp\": " ++ jstr b.timestamp ++
  ", \"transactions\": [" ++ String.intercalate ", " (b.transactions.map jsonOfTransaction) ++
  "]\x7d"

/-- `BlockchainLedger._calculate_hash`: SHA-256 of the canonical JSON of
the block without its `hash` field. -/
def calculateHash (b : Block) : String := sha256Hex (strBytes (jsonOfBlock b))

structure Ledger where
  chain : List Block
  pending : List Transaction
  difficulty : Nat
deriving Repr, DecidableEq

deriving instance DecidableEq for Except

/-- `'0' * difficulty`. -/
def zeros (d : Nat) : String := ⟨List.replicate d '0'⟩

/-- Python's `s.startswith(p)`, expressed on the character lists. -/
def pyStartsWith (s p : String) : Bool := s.data.take p.data.length == p.data

/-- `BlockchainLedger._create_genesis_block` (the `hash` key is `None`
while hashing — `_calculate_hash` ignores it — then set). -/
def createGenesisBlock (ts : String) : Block :=
  let base : Block :=
    { blockNumber := 0, timestamp := ts, transactions := [],
      previousHash := "0", hash := "", nonce := 0 }
  { base with hash := calculateHash base }

/-- `BlockchainLedger.__init__` (difficulty 2), with the genesis
timestamp as explicit clock input. -/
def initLedger (ts : String) : Ledger :=
  { chain := [createGenesisBlock ts], pending := [], difficulty := 2 }

/-- `BlockchainLedger._calculate_transaction_hash` (`now` is the second
`utcnow()` call made inside it). -/
def calculateTransactionHash (modelHash : String) (userId : Nat) (now : String) : String :=
  sha256Hex (strBytes (modelHash ++ toString userId ++ now))

/-- `BlockchainLedger.add_transaction`; `ts` and `now` are the two
`utcnow()` calls it makes. -/
def addTransaction (st : Ledger) (modelHash : String) (userId : Nat)
    (institution : String) (ts now : String) : Ledger × Transaction :=
  let t : Transaction :=
    { modelHash := modelHash, userId := userId, institution := institution,
      timestamp := ts, transactionHash := calculateTransactionHash modelHash userId now }
  ({ st with pending := st.pending ++ [t] }, t)

/-- The `while` loop of `_proof_of_work`: the local `nonce` counter is
written into a *copy* of the block, never into `b` itself. -/
def powLoop (difficulty : Nat) (b : Block) (hv : String) (nonce : Nat) : Nat → Option String
  | 0 => if pyStartsWith hv (zeros difficulty) then some hv else none
  | fuel + 1 =>
    if pyStartsWith hv (zeros difficulty) then some hv
    else
      let n := nonce + 1
      powLoop difficulty b (calculateHash { b with nonce := n }) n fuel

/-- `BlockchainLedger._proof_of_work` with explicit fuel. -/
def proofOfWork (difficulty : Nat) (b : Block) (fuel : Nat) : Option String :=
  powLoop difficulty b (calculateHash b) 0 fuel

inductive MineResult where
  | noPending
  | mined (st : Ledger) (b : Block)
deriving Repr, DecidableEq

/-- `BlockchainLedger.mine_block`; `ts` is its `utcnow()` call.  `none`
means the proof-of-work loop has not terminated within `fuel` steps (or
the chain was empty, which `__init__` makes unreachable and on which
Python would raise). -/
def mineBlock (st : Ledger) (ts : String) (fuel : Nat) : Option MineResult :=
  if st.pending.isEmpty then some .noPending
  else
    match st.chain.getLast? with
    | none => none
    | some last =>
      let candidate : Block :=
        { blockNumber := st.chain.length, timestamp := ts, transactions := st.pending,
          previousHash := last.hash, hash := "", nonce := 0 }
      match proofOfWork st.difficulty candidate fuel with
      | none => none
      | some h =>
        let newBlock := { candidate with hash := h }
        some (.mined { st with chain := st.chain ++ [newBlock], pending := [] } newBlock)

/-- `BlockchainLedger._verify_block_integrity`. -/
def verifyBlockIntegrity (b : Block) : Bool := b.hash == calculateHash b

structure VerifyResult where
  valid : Bool
  totalBlocks : Nat
  invalidBlocks : List Nat
  brokenLinks : List Nat
deriving Repr, DecidableEq

def dummyBlock : Block := default

/-- The body of the `for i in range(1, len(chain))` loop of
`verify_chain_integrity`. -/
def verifyStep (chain : List Block) (r : VerifyResult) (i : Nat) : VerifyResult :=
  let current := chain.getD i dummyBlock
  let previous := chain.getD (i - 1) dummyBlock
  let r :=
    if ¬ verifyBlockIntegrity current then
      { r with valid := false, invalidBlocks := r.invalidBlocks ++ [i] }
    else r
  if current.previousHash ≠ previous.hash then
    { r with valid := false, brokenLinks := r.brokenLinks ++ [i] }
  else r

/-- `BlockchainLedger.verify_chain_integrity` as a function of the chain. -/
def verifyChainIntegrity (chain : List Block) : VerifyResult :=
  ((List.range chain.length).filter (fun i => 0 < i)).foldl (verifyStep chain)
    { valid := true, totalBlocks := chain.length, invalidBlocks := [], brokenLinks := [] }

/-- `BlockchainLedger.get_block` as a function of the chain.  Python's
`chain[block_number]` semantics: negative indices count from the end and
raise `IndexError` below `-len` (the method's `except` clause re-raises). -/
def getBlock (chain : List Block) (blockNumber : Int) : Except String (Option Block) :=
  if blockNumber < (chain.length : Int) then
    if 0 ≤ blockNumber then .ok (some (chain.getD blockNumber.toNat dummyBlock))
    else if 0 ≤ blockNumber + chain.length then
      .ok (some (chain.getD (blockNumber + chain.length).toNat dummyBlock))
    else .error "IndexError"
  else .ok none

/-- Block `i` of the chain passes `_verify_block_integrity`. -/
def blockOkB (chain : List Block) (i : Nat) : Bool :=
  verifyBlockIntegrity (chain.getD i dummyBlock)

/-- The chain link at position `i` holds:
`chain[i].previous_hash == chain[i-1].hash`. -/
def linkOkB (chain : List Block) (i : Nat) : Bool :=
  (chain.getD i dummyBlock).previousHash == (chain.getD (i - 1) dummyBlock).hash

/-- The indices visited by the `for i in range(1, len(chain))` loop. -/
def chainIdxs (chain : List Block) : List Nat :=
  (List.range chain.length).filter (fun i => 0 < i)

/-! ### Concrete ledger runs used by the theorems below -/

/-- The ledger freshly initialized at a concrete clock reading. -/
def ledger0 : Ledger := initLedger "2024-01-01T00:00:00.000000"

/-- `add_transaction("m0", 1, "General Hospital")` on the fresh ledger. -/
def ledger1 : Ledger :=
  (addTransaction ledger0 "m0" 1 "General Hospital"
    "2024-01-01T00:00:01.000000" "2024-01-01T00:00:01.000001").1

/-- The `utcnow()` reading of the subsequent `mine_block()` call.  At
this input the candidate's nonce-0 hash does not start with `"00"` and
its nonce-1 hash does, so the proof-of-work loop runs exactly one
iteration. -/
def mineTs : String := "2024-01-01T00:00:02.000682"

/-- Diagnostic projection of a mining outcome: (a block was mined, its
stored hash starts with `difficulty` zeros, recomputing the hash over
its stored fields reproduces the stored hash). -/
def mineDiag (r : MineResult) : Bool × Bool × Bool :=
  match r with
  | .noPending => (false, false, false)
  | .mined _ b => (true, pyStartsWith b.hash (zeros 2), verifyBlockIntegrity b)

/-- C1: for the concrete mining run `mine_block()` on `ledger1` (one
pending transaction, difficulty 2), mining succeeds and the stored hash
does start with two hexadecimal zeros, but recomputing the hash over the
block's stored fields does NOT reproduce the stored hash:
`_proof_of_work` writes the winning nonce only into a local copy of the
block, so the appended block keeps `nonce = 0` while its `hash` field
holds the digest obtained at the winning nonce 1.  The block therefore
fails the ledger's own `_verify_block_integrity`, contradicting the
proof-of-work validity property. -/
theorem mined_block_fails_recomputation :
    ledger1.pending.isEmpty = false ∧ ledger1.difficulty = 2 ∧
      (mineBlock ledger1 mineTs 2).map mineDiag = some (true, true, false) := by
  refine ⟨rfl, rfl, ?_⟩
  decide

/-! ### `verify_chain_integrity`: characterization and tamper detection -/

/-- One loop iteration appends `i` to each violation list exactly when the
corresponding independent check fails, and clears `valid` accordingly. -/
lemma verifyStep_spec (chain : List Block) (r : VerifyResult) (i : Nat) :
    verifyStep chain r i =
      { valid := r.valid && (blockOkB chain i && linkOkB chain i),
        totalBlocks := r.totalBlocks,
        invalidBlocks := r.invalidBlocks ++ (if blockOkB chain i then [] else [i]),
        brokenLinks := r.brokenLinks ++ (if linkOkB chain i then [] else [i]) } := by
  by_cases hb : verifyBlockIntegrity (chain[i]?.getD dummyBlock) <;>
    by_cases hl : (chain[i]?.getD dummyBlock).previousHash = (chain[i - 1]?.getD dummyBlock).hash <;>
      simp [verifyStep, blockOkB, linkOkB, hb, hl]

/-- The loop of `verify_chain_integrity`, run over any index list from any
start state, accumulates exactly the per-index violations. -/
lemma verify_foldl (chain : List Block) (idxs : List Nat) (r : VerifyResult) :
    idxs.foldl (verifyStep chain) r =
      { valid := r.valid && idxs.all (fun i => blockOkB chain i && linkOkB chain i),
        totalBlocks := r.totalBlocks,
        invalidBlocks := r.invalidBlocks ++ idxs.filter (fun i => ¬ blockOkB chain i),
        brokenLinks := r.brokenLinks ++ idxs.filter (fun i => ¬ linkOkB chain i) } := by
  induction idxs generalizing r with
  | nil => simp
  | cons i rest ih =>
    simp only [List.foldl_cons, ih, verifyStep_spec, List.all_cons, List.filter_cons]
    by_cases hb : blockOkB chain i <;> by_cases hl : linkOkB chain i <;>
      simp [hb, hl, Bool.and_assoc, List.append_assoc]

/-- `verify_chain_integrity` checks, for every block after genesis,
independently its own integrity and its link to the predecessor, and
reports all violations without short-circuiting. -/
lemma verifyChainIntegrity_spec (chain : List Block) :
    verifyChainIntegrity chain =
      { valid := (chainIdxs chain).all (fun i => blockOkB chain i && linkOkB chain i),
        totalBlocks := chain.length,
        invalidBlocks := (chainIdxs chain).filter (fun i => ¬ blockOkB chain i),
        brokenLinks := (chainIdxs chain).filter (fun i => ¬ linkOkB chain i) } := by
  unfold verifyChainIntegrity chainIdxs
  rw [verify_foldl]
  simp

/-- A hand-built fully consistent two-block chain: `block1` stores the
genesis hash as its `previous_hash` and its own correctly recomputable
hash. -/
def genesisBlock : Block := createGenesisBlock "2024-01-01T00:00:00.000000"

def block1Base : Block :=
  { blockNumber := 1, timestamp := "2024-01-02T00:00:00.000000", transactions := [],
    previousHash := genesisBlock.hash, hash := "", nonce := 0 }

def block1 : Block := { block1Base with hash := calculateHash block1Base }

def chainOk : List Block := [genesisBlock, block1]

/-- `chainOk` after mutating the stored `nonce` field of `chain[0]`. -/
def chainMut : List Block := [{ genesisBlock with nonce := 7 }, block1]

/-- C3, counterexample: `chainOk` is a valid two-block chain, and after
mutating a stored field (`nonce`) of `chain[0]`, rerunning
`verify_chain_integrity` still reports `valid: true` with both violation
lists empty — index `i = 1` appears in neither `broken_links` nor
`invalid_blocks`, because the loop never rechecks the genesis block's own
integrity and the link comparison only reads the stored (unchanged)
`hash` field.  This refutes the claim's universally quantified mutation
property. -/
theorem genesis_mutation_undetected :
    verifyChainIntegrity chainOk =
      { valid := true, totalBlocks := 2, invalidBlocks := [], brokenLinks := [] } ∧
    ({ genesisBlock with nonce := 7 } : Block) ≠ genesisBlock ∧
    verifyChainIntegrity chainMut =
      { valid := true, totalBlocks := 2, invalidBlocks := [], brokenLinks := [] } :=
  ⟨by decide, by decide, by decide⟩

/-- C3, amended: `verify_chain_integrity` checks, for every block after
genesis, independently that its own hash recomputes correctly and that
its `previous_hash` equals the predecessor's stored hash, reporting all
violations without short-circuiting (the full characterization below);
and mutating the stored `hash` field of `chain[i-1]` to any different
value is detected, with `valid: false` and `i` in the broken-link
indices.  (Mutating other stored fields of `chain[i-1]` is reported only
through block `i-1`'s own integrity check — not index `i` — and not at
all for the genesis block, per the counterexample.) -/
theorem verify_chain_reports (chain : List Block) (i : Nat) (h' : String)
    (h0 : 0 < i) (hi : i < chain.length)
    (hlink : linkOkB chain i = true)
    (hne : h' ≠ (chain.getD (i - 1) dummyBlock).hash) :
    (∀ c : List Block,
        verifyChainIntegrity c =
          { valid := (chainIdxs c).all (fun j => blockOkB c j && linkOkB c j),
            totalBlocks := c.length,
            invalidBlocks := (chainIdxs c).filter (fun j => ¬ blockOkB c j),
            brokenLinks := (chainIdxs c).filter (fun j => ¬ linkOkB c j) }) ∧
    (verifyChainIntegrity
        (chain.set (i - 1) { chain.getD (i - 1) dummyBlock with hash := h' })).valid = false ∧
    i ∈ (verifyChainIntegrity
        (chain.set (i - 1) { chain.getD (i - 1) dummyBlock with hash := h' })).brokenLinks := by
  refine ⟨verifyChainIntegrity_spec, ?_⟩
  set mchain := chain.set (i - 1) { chain.getD (i - 1) dummyBlock with hash := h' } with hmut
  have hlen : mchain.length = chain.length := by rw [hmut]; exact List.length_set ..
  have hgi : mchain[i]? = chain[i]? := by
    rw [hmut]; exact List.getElem?_set_ne (by omega)
  have hgi1 : mchain[i - 1]? = some { chain.getD (i - 1) dummyBlock with hash := h' } := by
    rw [hmut]
    have : (chain.set (i - 1) { chain.getD (i - 1) dummyBlock with hash := h' })[i - 1]? =
        some { chain.getD (i - 1) dummyBlock with hash := h' } :=
      List.getElem?_set_self (by omega)
    exact this
  have hlink2 : linkOkB mchain i = false := by
    unfold linkOkB at hlink ⊢
    simp only [List.getD_eq_getElem?_getD] at hne
    simp only [List.getD_eq_getElem?_getD, hgi, hgi1] at hlink ⊢
    simp only [Option.getD_some]
    simp only [beq_iff_eq] at hlink ⊢
    rw [hlink]
    simp only [beq_eq_false_iff_ne, ne_eq]
    exact fun hcontra => hne hcontra.symm
  have hmem : i ∈ chainIdxs mchain := by
    unfold chainIdxs
    rw [hlen]
    simp only [List.mem_filter, List.mem_range]
    exact ⟨hi, by simpa using h0⟩
  rw [verifyChainIntegrity_spec]
  constructor
  · simp only [List.all_eq_false]
    exact ⟨i, hmem, by simp [hlink2]⟩
  · simp only [List.mem_filter]
    exact ⟨hmem, by simp [hlink2]⟩

/-- Witness for `verify_chain_reports`: applied to the concrete valid
chain `chainOk` at `i = 1`, mutating the genesis block's stored `hash`. -/
theorem verify_chain_reports_witness :
    (verifyChainIntegrity
        (chainOk.set 0 { chainOk.getD 0 dummyBlock with hash := "tampered" })).valid = false ∧
    1 ∈ (verifyChainIntegrity
        (chainOk.set 0 { chainOk.getD 0 dummyBlock with hash := "tampered" })).brokenLinks :=
  (verify_chain_reports chainOk 1 "tampered" (by decide) (by decide) (by decide)
    (by decide)).2

/-! ### `get_block` -/

/-- C8, counterexample: on the freshly initialized one-block chain,
`get_block(-2)` raises `IndexError` (`-2 < len(chain)` passes the guard,
and Python indexing with `-2` on a one-element list throws), refuting
"on any out-of-range index it returns an absent result and never
throws". -/
theorem get_block_negative_index_raises :
    getBlock ledger0.chain (-2) = .error "IndexError" := by decide

/-- C8, amended: for every NONNEGATIVE index, `get_block` either returns
the block at that index (when it is in range) or an absent result, and
never throws.  (Negative indices follow Python list semantics: indices
in `[-len, -1]` return a block counted from the end, and indices below
`-len` raise `IndexError`, per the counterexample.) -/
theorem get_block_nonneg_total (chain : List Block) (i : Int) (h : 0 ≤ i) :
    getBlock chain i =
      .ok (if i.toNat < chain.length then some (chain.getD i.toNat dummyBlock) else none) := by
  unfold getBlock
  by_cases hlt : i < (chain.length : Int)
  · have ht : i.toNat < chain.length := by omega
    simp [hlt, h, ht]
  · have ht : ¬ i.toNat < chain.length := by omega
    simp [hlt, ht]

/-- Witness for `get_block_nonneg_total` at the fresh ledger and index 0. -/
theorem get_block_nonneg_total_witness :
    getBlock ledger0.chain 0 =
      .ok (if (0 : Int).toNat < ledger0.chain.length then
        some (ledger0.chain.getD (0 : Int).toNat dummyBlock) else none) :=
  get_block_nonneg_total ledger0.chain 0 (by decide)

/-! ### The federated-learning orchestrator (`federated_learning.py`)

Python floats are modelled as `ℚ`; on every concrete input appearing in
the claims the float computations are exact, so the models agree. -/

/-- `sum(...)` / `np.sum`. -/
def sumQ (l : List ℚ) : ℚ := l.sum

def qAt (l : List ℚ) (i : Nat) : ℚ := l.getD i 0

/-- `max(recent_improvements) if recent_improvements else 0`. -/
def pyMaxD : List ℚ → ℚ
  | [] => 0
  | x :: xs => xs.foldl max x

/-- The three possible result dicts of `check_convergence` (messages are
represented structurally; `converged` carries
`(len(history), final_accuracy)`, `improving` carries
`(max_improvement, current_accuracy)`). -/
inductive ConvResult where
  | insufficient
  | converged (rounds : Nat) (finalAccuracy : ℚ)
  | improving (maxImprovement : ℚ) (currentAccuracy : ℚ)
deriving Repr, DecidableEq

/-- `FederatedLearningOrchestrator.check_convergence`.  `none` models the
`IndexError` that `accuracy_history[-1]` raises when the guard is passed
with an empty history (only possible for `patience = 0`). -/
def checkConvergence (history : List ℚ) (threshold : ℚ) (patience : Nat) : Option ConvResult :=
  if history.length < patience then some .insufficient
  else
    match history.getLast? with
    | none => none
    | some lastAcc =>
      let idxs := (List.range' (history.length - patience) patience).filter (fun i => 0 < i)
      let improvements := idxs.map (fun i => qAt history i - qAt history (i - 1))
      let maxImp := pyMaxD improvements
      if maxImp < threshold then some (.converged history.length lastAcc)
      else some (.improving maxImp lastAcc)

/-- The most recent `n` entries of a history. -/
def lastN (n : Nat) (l : List ℚ) : List ℚ := l.drop (l.length - n)

/-- Round-over-round deltas of a history segment. -/
def adjacentDeltas (l : List ℚ) : List ℚ := (l.zip l.tail).map (fun p => p.2 - p.1)

/-- `FederatedLearningOrchestrator.federated_averaging`.
`np.array` of a ragged list and `np.average` with a mismatched weight
length raise; both become errors.  When the caller-supplied weights sum
to zero, numpy's array division produces NaN weights rather than raising;
that input never reaches this path from `weighted_averaging` (whose
weights sum to exactly 1), and the model reports it as an error. -/
def federatedAveraging (wl : List (List ℚ)) (weights : Option (List ℚ)) :
    Except String (List ℚ) :=
  if wl.isEmpty then .error "ValueError: No model weights provided"
  else
    let cols := (wl.headD []).length
    if ¬ wl.all (fun r => r.length == cols) then .error "ValueError: ragged model weights"
    else
      match weights with
      | none => .ok ((List.range cols).map (fun j => sumQ (wl.map (fun r => qAt r j)) / wl.length))
      | some w =>
        if w.length ≠ wl.length then .error "ValueError: weights length mismatch"
        else
          let w2 := w.map (fun x => x / sumQ w)
          if sumQ w2 = 0 then .error "ZeroDivisionError: weights sum to zero"
          else .ok ((List.range cols).map (fun j =>
            sumQ ((w2.zip wl).map (fun p => p.1 * qAt p.2 j)) / sumQ w2))

/-- `FederatedLearningOrchestrator.weighted_averaging`: the Python
scalar division `size / total_size` raises `ZeroDivisionError` when
`sum(data_sizes) == 0`. -/
def weightedAveraging (wl : List (List ℚ)) (dataSizes : List ℚ) : Except String (List ℚ) :=
  let total := sumQ dataSizes
  if total = 0 then .error "ZeroDivisionError: division by zero"
  else federatedAveraging wl (some (dataSizes.map (fun s => s / total)))

/-- A participant record as created by `register_participant` and
mutated by `update_participant_stats` (the `last_accuracy` /
`last_update` keys are absent until the first update: `Option`). -/
structure ParticipantRec where
  institution : String
  status : String
  registeredAt : String
  roundsParticipated : Nat
  modelUpdatesSubmitted : Nat
  lastAccuracy : Option ℚ
  lastUpdate : Option String
deriving Repr, DecidableEq

/-- Orchestrator state: `self.participants` is a Python dict
(insertion-ordered, unique keys), embedded as an association list.
`global_model` and `training_history` are set once at construction and
never touched by any method, so they are omitted. -/
structure FLState where
  currentRound : Nat
  participants : List (String × ParticipantRec)
deriving Repr, DecidableEq

inductive RegResult where
  | alreadyRegistered
  | success (pid : String)
deriving Repr, DecidableEq

inductive RemResult where
  | success
  | notFound
deriving Repr, DecidableEq

/-- Dict lookup `self.participants[participant_id]`. -/
def lookupParticipant (st : FLState) (pid : String) : Option ParticipantRec :=
  (st.participants.find? (fun kv => kv.1 == pid)).map Prod.snd

/-- `FederatedLearningOrchestrator.register_participant` (`ts` is its
`utcnow()` call). -/
def registerParticipant (st : FLState) (pid institutionName ts : String) :
    FLState × RegResult :=
  if (st.participants.find? (fun kv => kv.1 == pid)).isSome then (st, .alreadyRegistered)
  else
    ({ st with
        participants := st.participants ++
          [(pid,
            { institution := institutionName, status := "active", registeredAt := ts,
              roundsParticipated := 0, modelUpdatesSubmitted := 0,
              lastAccuracy := none, lastUpdate := none })] },
     .success pid)

/-- `FederatedLearningOrchestrator.remove_participant`: `del
self.participants[participant_id]` removes the unique entry with that
key. -/
def removeParticipant (st : FLState) (pid : String) : FLState × RemResult :=
  if (st.participants.find? (fun kv => kv.1 == pid)).isSome then
    ({ st with participants := st.participants.filter (fun kv => !(kv.1 == pid)) }, .success)
  else (st, .notFound)

/-- After filtering out every entry with key `pid`, a lookup for `pid`
finds nothing. -/
lemma find?_filter_not_key (l : List (String × ParticipantRec)) (pid : String) :
    (l.filter (fun kv => !(kv.1 == pid))).find? (fun kv => kv.1 == pid) = none := by
  induction l with
  | nil => rfl
  | cons kv rest ih =>
    by_cases h : kv.1 == pid
    · simp [List.filter_cons, h, ih]
    · simp [List.filter_cons, h, List.find?_cons, ih]

/-- Filtering out the entries with key `pid` does not change a lookup
for a different key `q`. -/
lemma find?_filter_other_key (l : List (String × ParticipantRec)) (pid q : String)
    (hq : q ≠ pid) :
    (l.filter (fun kv => !(kv.1 == pid))).find? (fun kv => kv.1 == q) =
      l.find? (fun kv => kv.1 == q) := by
  induction l with
  | nil => rfl
  | cons kv rest ih =>
    by_cases h : kv.1 == pid
    · have hk : kv.1 = pid := by simpa [beq_iff_eq] using h
      have h2 : (kv.1 == q) = false := by
        simp only [beq_eq_false_iff_ne, ne_eq, hk]
        exact fun e => hq e.symm
      simp [List.filter_cons, h, List.find?_cons, h2, ih]
    · by_cases h3 : kv.1 == q
      · simp [List.filter_cons, h, List.find?_cons, h3]
      · simp [List.filter_cons, h, List.find?_cons, h3, ih]

/-- C9, amended: `remove_participant` physically deletes the stored
record: afterwards the participant id is absent from the registry (no
tombstone is kept), while every other participant's record is untouched.
The record created by `register_participant` therefore does NOT survive
removal. -/
theorem remove_participant_deletes (st : FLState) (pid : String) :
    lookupParticipant (removeParticipant st pid).1 pid = none ∧
    ∀ q, q ≠ pid → lookupParticipant (removeParticipant st pid).1 q = lookupParticipant st q := by
  unfold removeParticipant lookupParticipant
  by_cases h : (st.participants.find? (fun kv => kv.1 == pid)).isSome
  · refine ⟨?_, ?_⟩
    · simp [h, find?_filter_not_key]
    · intro q hq
      simp [h, find?_filter_other_key _ _ _ hq]
  · have hnone : st.participants.find? (fun kv => kv.1 == pid) = none := by
      cases hfind : st.participants.find? (fun kv => kv.1 == pid) with
      | none => rfl
      | some v => exact absurd (by simp [hfind]) h
    refine ⟨?_, ?_⟩
    · simp [h, hnone]
    · intro q hq
      simp [h]

def flEmpty : FLState := { currentRound := 0, participants := [] }

def flOne : FLState :=
  (registerParticipant flEmpty "inst-001" "General Hospital" "2024-01-01T00:00:00.000000").1

def flTwo : FLState :=
  (registerParticipant flOne "inst-002" "City Clinic" "2024-01-01T00:00:01.000000").1

/-- C9, counterexample: register a participant, then remove it; the
stored record created at registration is physically gone — the registry
is empty again and the lookup reports nothing — refuting "the stored
record created at registration survives every sequence of operations
including removal". -/
theorem participant_record_deleted_on_removal :
    lookupParticipant flOne "inst-001" ≠ none ∧
    (removeParticipant flOne "inst-001").1.participants = [] ∧
    lookupParticipant (removeParticipant flOne "inst-001").1 "inst-001" = none := by decide

/-- Witness for `remove_participant_deletes`: a two-participant registry,
removing `inst-001` keeps `inst-002` intact. -/
theorem remove_participant_deletes_witness :
    lookupParticipant (removeParticipant flTwo "inst-001").1 "inst-001" = none ∧
    lookupParticipant (removeParticipant flTwo "inst-001").1 "inst-002" =
      lookupParticipant flTwo "inst-002" :=
  ⟨(remove_participant_deletes flTwo "inst-001").1,
   (remove_participant_deletes flTwo "inst-001").2 "inst-002" (by decide)⟩

/-! ### `check_convergence`: the delta window -/

/-- Shifting a delta-index window across a `cons`. -/
lemma deltas_shift (x : ℚ) (t : List ℚ) (s n : Nat) (hs : 1 ≤ s) :
    (List.range' (s + 1) n).map (fun i => qAt (x :: t) i - qAt (x :: t) (i - 1)) =
      (List.range' s n).map (fun i => qAt t i - qAt t (i - 1)) := by
  rw [List.range'_eq_map_range, List.range'_eq_map_range, List.map_map, List.map_map]
  apply List.map_congr_left
  intro i _
  simp only [Function.comp_apply]
  have e2 : s + 1 + i - 1 = (s + i - 1) + 1 := by omega
  have e1 : s + 1 + i = (s + i - 1 + 1) + 1 := by omega
  have e3 : s + i = s + i - 1 + 1 := by omega
  rw [e2, e1, e3]
  simp [qAt]

/-- `adjacentDeltas` written with explicit indices. -/
lemma adjacentDeltas_indexed :
    ∀ l : List ℚ,
      adjacentDeltas l =
        (List.range' 1 (l.length - 1)).map (fun i => qAt l i - qAt l (i - 1))
  | [] => rfl
  | [x] => rfl
  | x :: y :: t => by
    have ih := adjacentDeltas_indexed (y :: t)
    have hlhs : adjacentDeltas (x :: y :: t) = (y - x) :: adjacentDeltas (y :: t) := rfl
    have htail := deltas_shift x (y :: t) 1 t.length (by omega)
    rw [hlhs, ih]
    have hlen : (x :: y :: t).length - 1 = t.length + 1 := by simp
    rw [hlen, List.range'_succ, List.map_cons, htail]
    have hl2 : (y :: t).length - 1 = t.length := by simp
    rw [hl2]
    simp [qAt]

/-- `adjacentDeltas` of a suffix, with indices into the full history. -/
lemma adjacentDeltas_drop :
    ∀ (l : List ℚ) (k : Nat),
      adjacentDeltas (l.drop k) =
        (List.range' (k + 1) (l.length - (k + 1))).map (fun i => qAt l i - qAt l (i - 1))
  | l, 0 => by simpa using adjacentDeltas_indexed l
  | [], k + 1 => by simp [adjacentDeltas]
  | x :: t, k + 1 => by
    have ih := adjacentDeltas_drop t k
    have hd : (x :: t).drop (k + 1) = t.drop k := rfl
    rw [hd, ih]
    have hlen : (x :: t).length - (k + 2) = t.length - (k + 1) := by simp
    rw [show k + 1 + 1 = (k + 1) + 1 from rfl, hlen,
      deltas_shift x t (k + 1) (t.length - (k + 1)) (by omega)]

/-- The loop of `check_convergence` computes exactly the adjacent deltas
of the most recent `min(patience+1, len)` history entries. -/
lemma code_window (h : List ℚ) (patience : Nat) (hp : patience ≤ h.length) :
    ((List.range' (h.length - patience) patience).filter (fun i => 0 < i)).map
        (fun i => qAt h i - qAt h (i - 1)) =
      adjacentDeltas (lastN (min (patience + 1) h.length) h) := by
  by_cases hz : h.length - patience = 0
  · have hlenp : h.length = patience := by omega
    cases patience with
    | zero =>
      have h0 : h = [] := List.eq_nil_of_length_eq_zero hlenp
      subst h0
      rfl
    | succ p =>
      rw [hz, List.range'_succ]
      have hfil : (List.range' 1 p).filter (fun i => decide (0 < i)) = List.range' 1 p := by
        rw [List.filter_eq_self]
        intro a ha
        rcases List.mem_range'.1 ha with ⟨i, _, rfl⟩
        simp
      have : (0 : Nat) :: List.range' (0 + 1) p = 0 :: List.range' 1 p := by norm_num
      rw [this]
      simp only [List.filter_cons]
      norm_num
      rw [hfil]
      have hmin : min (p + 1 + 1) h.length = h.length := by omega
      rw [hmin]
      unfold lastN
      rw [Nat.sub_self, List.drop_zero, adjacentDeltas_indexed, hlenp]
      simp
  · have h1 : 1 ≤ h.length - patience := by omega
    have hfil : (List.range' (h.length - patience) patience).filter (fun i => decide (0 < i)) =
        List.range' (h.length - patience) patience := by
      rw [List.filter_eq_self]
      intro a ha
      rcases List.mem_range'.1 ha with ⟨i, _, rfl⟩
      simp only [decide_eq_true_eq]
      omega
    rw [hfil]
    have hmin : min (patience + 1) h.length = patience + 1 := by omega
    rw [hmin]
    unfold lastN
    rw [adjacentDeltas_drop h (h.length - (patience + 1))]
    have e1 : h.length - (patience + 1) + 1 = h.length - patience := by omega
    rw [e1]
    have e2 : h.length - (h.length - patience) = patience := by omega
    rw [e2]

/-- C4, counterexample: on `[0.80, 0.81, 0.815, 0.816]` with
`threshold = 0.01`, `patience = 3`, the code reports `converged: false`
(the "still improving" dict), not `converged: true` as claimed: its delta
window spans the last `patience + 1 = 4` entries, so it includes
`0.81 - 0.80 = 0.01`, which is not below the threshold. -/
theorem convergence_example_not_converged :
    checkConvergence [4/5, 81/100, 163/200, 102/125] (1/100) 3 =
      some (.improving (1/100) (102/125)) := by
  unfold checkConvergence
  norm_num [List.range', qAt, pyMaxD, List.getLast?, max_def]

/-- C4, amended: `check_convergence` reports "not converged,
insufficient history" whenever the history holds fewer than `patience`
accuracies; otherwise it computes the round-over-round deltas across the
most recent `patience + 1` entries (all entries when the history holds
exactly `patience`) and reports `converged: true` exactly when the
maximum of those deltas is below `threshold`.  Consequently
`[0.80, 0.81, 0.815, 0.816]` with `threshold=0.01, patience=3` reports
`converged: false`, and `[0.5, 0.6, 0.75, 0.9]` also reports
`converged: false`. -/
theorem check_convergence_spec (history : List ℚ) (threshold : ℚ) (patience : Nat) :
    (history.length < patience →
      checkConvergence history threshold patience = some .insufficient) ∧
    (patience ≤ history.length → 0 < history.length →
      checkConvergence history threshold patience =
        some
          (if pyMaxD (adjacentDeltas (lastN (min (patience + 1) history.length) history)) <
              threshold
           then .converged history.length (qAt history (history.length - 1))
           else .improving
              (pyMaxD (adjacentDeltas (lastN (min (patience + 1) history.length) history)))
              (qAt history (history.length - 1)))) := by
  constructor
  · intro h
    simp [checkConvergence, h]
  · intro hp hnz
    have hnl : ¬ history.length < patience := by omega
    have hidx : history.length - 1 < history.length := by omega
    have hlast : history.getLast? = some (qAt history (history.length - 1)) := by
      rw [List.getLast?_eq_getElem?, List.getElem?_eq_getElem hidx]
      simp [qAt, List.getD_eq_getElem?_getD, List.getElem?_eq_getElem hidx]
    simp only [checkConvergence, hnl, if_false, hlast]
    rw [code_window history patience hp]
    by_cases hc :
      pyMaxD (adjacentDeltas (lastN (min (patience + 1) history.length) history)) < threshold <;>
    simp [hc]

/-- Witness for `check_convergence_spec`: the claim's second example
`[0.5, 0.6, 0.75, 0.9]`, `threshold=0.01`, `patience=3` reports the
"still improving" dict with max delta `0.15` and current accuracy
`0.9`. -/
theorem check_convergence_spec_witness :
    checkConvergence [1/2, 3/5, 3/4, 9/10] (1/100) 3 =
      some (.improving (3/20) (9/10)) := by
  have h := (check_convergence_spec [1/2, 3/5, 3/4, 9/10] (1/100) 3).2 (by norm_num) (by norm_num)
  rw [h]
  norm_num [lastN, adjacentDeltas, pyMaxD, qAt, max_def, List.zip, List.zipWith]

/-! ### `weighted_averaging` -/

lemma sumQ_map_div (l : List ℚ) (c : ℚ) : sumQ (l.map (fun x => x / c)) = sumQ l / c := by
  induction l with
  | nil => simp [sumQ]
  | cons x t ih =>
    simp only [sumQ, List.map_cons, List.sum_cons] at ih ⊢
    rw [ih, add_div]

/-- C5: `weighted_averaging` derives weight `i` as
`data_sizes[i] / sum(data_sizes)` and returns the correspondingly
weighted mean of the vectors, and fails with a `ZeroDivisionError` when
`sum(data_sizes) == 0`.  (The vectors must form a rectangular array with
one weight per vector, as `np.array`/`np.average` require.) -/
theorem weighted_averaging_spec (wl : List (List ℚ)) (ds : List ℚ)
    (hne : wl ≠ [])
    (hrect : ∀ r ∈ wl, r.length = (wl.headD []).length)
    (hlen : ds.length = wl.length) :
    (sumQ ds = 0 → weightedAveraging wl ds = .error "ZeroDivisionError: division by zero") ∧
    (sumQ ds ≠ 0 → weightedAveraging wl ds =
      .ok ((List.range (wl.headD []).length).map (fun j =>
        sumQ ((ds.zip wl).map (fun p => p.1 / sumQ ds * qAt p.2 j))))) := by
  constructor
  · intro h
    simp [weightedAveraging, h]
  · intro hS
    have hemp : wl.isEmpty = false := by
      cases wl with
      | nil => exact absurd rfl hne
      | cons a t => rfl
    have hall : wl.all (fun r => r.length == (wl.headD []).length) = true := by
      rw [List.all_eq_true]
      intro r hr
      simpa [beq_iff_eq] using hrect r hr
    have hwlen : (ds.map (fun s => s / sumQ ds)).length = wl.length := by simp [hlen]
    have hw : sumQ (ds.map (fun s => s / sumQ ds)) = 1 := by
      rw [sumQ_map_div, div_self hS]
    simp only [weightedAveraging, hS, if_neg, federatedAveraging, hemp, Bool.false_eq_true,
      if_false, hall, not_true, hwlen, ne_eq, not_false_eq_true, hw, div_one, one_ne_zero]
    simp only [List.map_id']
    rw [hw, if_neg one_ne_zero]
    simp only [div_one]
    congr 1
    apply List.map_congr_left
    intro j _
    rw [List.zip_map_left, List.map_map]
    congr 1

/-- Witness for `weighted_averaging_spec`: the claim's concrete example
`weighted_averaging([[1.0],[3.0]], data_sizes=[1,3])` yields `[2.5]`. -/
theorem weighted_averaging_spec_witness :
    weightedAveraging [[(1 : ℚ)], [3]] [1, 3] = .ok [5/2] := by
  have h := (weighted_averaging_spec [[(1 : ℚ)], [3]] [1, 3] (by simp) (by decide)
    (by rfl)).2 (by norm_num [sumQ])
  rw [h]
  norm_num [sumQ, qAt, List.range, List.range.loop, List.zip, List.zipWith]

/-! ### The SMPC engine (`smpc_engine.py`)

Parameter values are numbers, lists of numbers, or anything else
(`PVal.other`, opaque: `float()` raises on it — numeric strings, which
`float()` would coerce, appear in no claim and are not modelled).
`json.dumps`/`json.loads` are modelled at the value level as a JSON
syntax tree; Fernet is modelled as authenticated encryption: a token
carries the key it was minted under and a fresh IV (the per-call
randomness), and decryption succeeds exactly on tokens minted under the
engine's own key.  `base64` encode/decode is a bijection on tokens and
is absorbed into the token representation. -/

inductive PVal where
  | num (q : ℚ)
  | vec (l : List ℚ)
  | other (s : String)
deriving Repr, DecidableEq

abbrev Params := List (String × PVal)

inductive JsonVal where
  | num (q : ℚ)
  | str (s : String)
  | arr (l : List JsonVal)
  | obj (fields : List (String × JsonVal))
deriving Repr

/-- `json.dumps` of one value. -/
def dumpVal : PVal → JsonVal
  | .num q => .num q
  | .vec l => .arr (l.map JsonVal.num)
  | .other s => .str s

/-- `json.dumps(parameters)` for a parameter mapping. -/
def dumps (p : Params) : JsonVal := .obj (p.map (fun kv => (kv.1, dumpVal kv.2)))

def jnums : List JsonVal → Option (List ℚ)
  | [] => some []
  | .num q :: rest => (jnums rest).map (q :: ·)
  | _ :: _ => none

/-- `json.loads` of one value, shaped back into the parameter-value
domain (nested objects and heterogeneous arrays appear in no claim). -/
def loadVal : JsonVal → Option PVal
  | .num q => some (.num q)
  | .str s => some (.other s)
  | .arr l => (jnums l).map PVal.vec
  | .obj _ => none

def loadFields : List (String × JsonVal) → Option Params
  | [] => some []
  | (k, v) :: rest =>
    match loadVal v, loadFields rest with
    | some pv, some ps => some ((k, pv) :: ps)
    | _, _ => none

/-- `json.loads` of a parameter payload. -/
def loads : JsonVal → Option Params
  | .obj fields => loadFields fields
  | _ => none

/-- An encrypted payload: a Fernet token (carrying the minting key, the
fresh per-call IV, and the serialized payload) or arbitrary non-token
data, on which Fernet decryption raises `InvalidToken`. -/
inductive Ciphertext where
  | token (key : Nat) (iv : Nat) (payload : JsonVal)
  | garbage (s : String)

/-- Engine state: the master key generated in `__init__` (no method ever
mutates it). -/
structure SMPCState where
  masterKey : Nat
deriving Repr, DecidableEq

/-- `SMPCEngine.encrypt_parameters`; `iv` is the fresh randomness Fernet
draws on each call, so repeated calls yield different ciphertexts. -/
def encryptParameters (st : SMPCState) (iv : Nat) (p : Params) : Ciphertext :=
  .token st.masterKey iv (dumps p)

/-- `SMPCEngine.decrypt_parameters`. -/
def decryptParameters (st : SMPCState) (c : Ciphertext) : Except String Params :=
  match c with
  | .token k _ payload =>
    if k = st.masterKey then
      match loads payload with
      | some p => .ok p
      | none => .error "json.loads: not a parameter mapping"
    else .error "InvalidToken"
  | .garbage _ => .error "InvalidToken"

def isOkB (r : Except String Params) : Bool :=
  match r with
  | .ok _ => true
  | .error _ => false

/-- The decryption loop of `secure_aggregate`: sequential, the first
failure aborts the whole call. -/
def decryptAll (st : SMPCState) : List Ciphertext → Except String (List Params)
  | [] => .ok []
  | c :: rest =>
    match decryptParameters st c with
    | .error e => .error e
    | .ok p =>
      match decryptAll st rest with
      | .ok ps => .ok (p :: ps)
      | .error e => .error e

/-- Python `+` on collected parameter values inside `sum(...)`:
float+float, float+ndarray and ndarray+ndarray broadcasting; ragged
arrays raise. -/
def pyAdd : PVal → PVal → Except String PVal
  | .num a, .num b => .ok (.num (a + b))
  | .num a, .vec l => .ok (.vec (l.map (fun x => a + x)))
  | .vec l, .num b => .ok (.vec (l.map (fun x => x + b)))
  | .vec l, .vec m =>
    if l.length = m.length then .ok (.vec (List.zipWith (· + ·) l m))
    else .error "ValueError: operands could not be broadcast"
  | _, _ => .error "TypeError: unsupported operand"

/-- `... / len(param_values)` on a summed value. -/
def pyDivN (v : PVal) (n : Nat) : PVal :=
  match v with
  | .num a => .num (a / n)
  | .vec l => .vec (l.map (fun x => x / n))
  | .other s => .other s

def allVecs : List PVal → Option (List (List ℚ))
  | [] => some []
  | .vec l :: rest => (allVecs rest).map (l :: ·)
  | _ :: _ => none

/-- `np.mean(rows, axis=0).tolist()` on a rectangular stack (`n` is the
common row length). -/
def vecMean (rows : List (List ℚ)) (n : Nat) : List ℚ :=
  (List.range n).map (fun j => sumQ (rows.map (fun r => qAt r j)) / rows.length)

/-- The per-key averaging step of `_average_parameters`: if the first
collected value is an ndarray, `np.mean(values, axis=0)` (requiring a
homogeneous rectangular stack); otherwise `sum(values)/len(values)`. -/
def averageOne (vals : List PVal) : Except String PVal :=
  match vals with
  | [] => .error "unreachable: empty param_values"
  | .vec v :: _ =>
    match allVecs vals with
    | some rows =>
      if rows.all (fun r => r.length == v.length) then .ok (.vec (vecMean rows v.length))
      else .error "ValueError: ragged arrays"
    | none => .error "ValueError: inhomogeneous array"
  | _ =>
    match vals.foldl (fun acc v => acc.bind (fun s => pyAdd s v)) (Except.ok (.num 0)) with
    | .ok s => .ok (pyDivN s vals.length)
    | .error e => .error e

def isOtherB : PVal → Bool
  | .other _ => true
  | _ => false

/-- The values collected for `param_name`: one per payload containing
that name, in payload order. -/
def collectVals (key : String) (psList : List Params) : List PVal :=
  psList.filterMap (fun p => (p.find? (fun kv => kv.1 == key)).map Prod.snd)

/-- The `for param_name in parameters_list[0].keys()` loop of
`_average_parameters` (`float()` on a non-numeric value raises and
aborts the whole call). -/
def avgKeys (psList : List Params) : List String → Except String Params
  | [] => .ok []
  | key :: rest =>
    let vals := collectVals key psList
    if vals.any isOtherB then .error "ValueError: could not convert to float"
    else
      match vals with
      | [] => avgKeys psList rest
      | _ :: _ =>
        match averageOne vals, avgKeys psList rest with
        | .ok av, .ok tail => .ok ((key, av) :: tail)
        | .error e, _ => .error e
        | .ok _, .error e => .error e

/-- `SMPCEngine._average_parameters`. -/
def averageParameters (psList : List Params) : Except String Params :=
  match psList with
  | [] => .ok []
  | first :: _ => avgKeys psList (first.map Prod.fst)

/-- `SMPCEngine.secure_aggregate`, in state-passing form: the method
assigns no attribute, so the state component is returned unchanged. -/
def secureAggregate (st : SMPCState) (lst : List Ciphertext) :
    SMPCState × Except String Params :=
  (st,
    if lst.isEmpty then .error "ValueError: No parameters to aggregate"
    else
      match decryptAll st lst with
      | .error e => .error e
      | .ok ps => averageParameters ps)

/-- Encrypting a batch of payloads (each call draws a fresh IV; the
counter models that). -/
def encryptAllGo (st : SMPCState) : List Params → Nat → List Ciphertext
  | [], _ => []
  | p :: rest, i => encryptParameters st i p :: encryptAllGo st rest (i + 1)

def encryptAll (st : SMPCState) (ps : List Params) : List Ciphertext :=
  encryptAllGo st ps 0

/-- `SMPCEngine.add_differential_privacy_noise`: the Laplace draws
`np.random.laplace(0, scale)` are modelled as an oracle of the draw
index (the scale `sensitivity / epsilon` only shapes the distribution,
not which entries are perturbed). -/
def addNoiseVec (noise : Nat → ℚ) : List ℚ → Nat → List ℚ
  | [], _ => []
  | q :: qs, i => (q + noise i) :: addNoiseVec noise qs (i + 1)

def addDPNoiseGo (noise : Nat → ℚ) : List (String × PVal) → Nat → List (String × PVal)
  | [], _ => []
  | (k, .num q) :: rest, i => (k, .num (q + noise i)) :: addDPNoiseGo noise rest (i + 1)
  | (k, .vec l) :: rest, i => (k, .vec (addNoiseVec noise l i)) :: addDPNoiseGo noise rest (i + l.length)
  | (k, .other s) :: rest, i => (k, .other s) :: addDPNoiseGo noise rest i

def addDPNoise (p : Params) (noise : Nat → ℚ) : Params := addDPNoiseGo noise p 0

/-! ### Round trip and failure behaviour of the cipher layer -/

lemma jnums_map_num (l : List ℚ) : jnums (l.map JsonVal.num) = some l := by
  induction l with
  | nil => rfl
  | cons x t ih => simp [jnums, ih]

lemma loadVal_dumpVal (v : PVal) : loadVal (dumpVal v) = some v := by
  cases v with
  | num q => rfl
  | vec l => simp [dumpVal, loadVal, jnums_map_num]
  | other s => rfl

lemma loadFields_dumps (p : Params) :
    loadFields (p.map (fun kv => (kv.1, dumpVal kv.2))) = some p := by
  induction p with
  | nil => rfl
  | cons kv t ih => simp [loadFields, loadVal_dumpVal, ih]

lemma loads_dumps (p : Params) : loads (dumps p) = some p := by
  simp [loads, dumps, loadFields_dumps]

/-- C6: `decrypt(encrypt(p)) == p` for every parameter mapping `p`
(numeric scalars and numeric sequences; `other` covers the remaining
JSON scalars) on every run — `iv` is the run's fresh randomness — even
though ciphertexts from runs with different randomness differ. -/
theorem decrypt_encrypt_roundtrip (st : SMPCState) (iv : Nat) (p : Params) :
    decryptParameters st (encryptParameters st iv p) = .ok p ∧
    ∀ iv2, iv ≠ iv2 → encryptParameters st iv p ≠ encryptParameters st iv2 p := by
  constructor
  · simp [encryptParameters, decryptParameters, loads_dumps]
  · intro iv2 hne h
    simp only [encryptParameters, Ciphertext.token.injEq] at h
    exact hne h.2.1

/-- Witness for `decrypt_encrypt_roundtrip` at a concrete mapping and
two concrete runs. -/
theorem decrypt_encrypt_roundtrip_witness :
    decryptParameters ⟨7⟩ (encryptParameters ⟨7⟩ 0 [("w", PVal.num 1)]) =
      .ok [("w", PVal.num 1)] ∧
    encryptParameters ⟨7⟩ 0 [("w", PVal.num 1)] ≠
      encryptParameters ⟨7⟩ 1 [("w", PVal.num 1)] :=
  ⟨(decrypt_encrypt_roundtrip ⟨7⟩ 0 [("w", PVal.num 1)]).1,
   (decrypt_encrypt_roundtrip ⟨7⟩ 0 [("w", PVal.num 1)]).2 1 (by decide)⟩

lemma decryptAll_error (st : SMPCState) (lst : List Ciphertext) (c : Ciphertext)
    (hc : c ∈ lst) (hf : isOkB (decryptParameters st c) = false) :
    ∃ e, decryptAll st lst = .error e := by
  induction lst with
  | nil => simp at hc
  | cons a t ih =>
    rcases List.mem_cons.1 hc with rfl | hmem
    · cases hd : decryptParameters st c with
      | error e => exact ⟨e, by simp [decryptAll, hd]⟩
      | ok p => rw [hd] at hf; simp [isOkB] at hf
    · cases hd : decryptParameters st a with
      | error e => exact ⟨e, by simp [decryptAll, hd]⟩
      | ok p =>
        rcases ih hmem with ⟨e, he⟩
        exact ⟨e, by simp [decryptAll, hd, he]⟩

/-- C7: `secure_aggregate` never changes the engine state, fails the
whole call on an empty payload sequence, and fails the whole call — no
partial aggregate — as soon as any single payload fails to decrypt. -/
theorem secure_aggregate_failure (st : SMPCState) (lst : List Ciphertext) :
    (secureAggregate st lst).1 = st ∧
    (lst = [] →
      (secureAggregate st lst).2 = .error "ValueError: No parameters to aggregate") ∧
    ((∃ c ∈ lst, isOkB (decryptParameters st c) = false) →
      ∃ e, (secureAggregate st lst).2 = .error e) := by
  refine ⟨rfl, ?_, ?_⟩
  · intro h
    subst h
    rfl
  · rintro ⟨c, hc, hfail⟩
    have hlne : lst.isEmpty = false := by
      cases lst with
      | nil => simp at hc
      | cons a t => rfl
    rcases decryptAll_error st lst c hc hfail with ⟨e, he⟩
    exact ⟨e, by simp [secureAggregate, hlne, he]⟩

/-- Witness for `secure_aggregate_failure`: the empty batch and a batch
holding one undecryptable payload, on a concrete engine state. -/
theorem secure_aggregate_failure_witness :
    (secureAggregate ⟨3⟩ [Ciphertext.garbage "tampered"]).1 = (⟨3⟩ : SMPCState) ∧
    (secureAggregate ⟨3⟩ []).2 = .error "ValueError: No parameters to aggregate" ∧
    ∃ e, (secureAggregate ⟨3⟩ [Ciphertext.garbage "tampered"]).2 = .error e :=
  ⟨(secure_aggregate_failure ⟨3⟩ [.garbage "tampered"]).1,
   (secure_aggregate_failure ⟨3⟩ []).2.1 rfl,
   (secure_aggregate_failure ⟨3⟩ [.garbage "tampered"]).2.2
     ⟨.garbage "tampered", by simp, rfl⟩⟩

/-! ### `add_differential_privacy_noise`: key set and frame -/

lemma addDPNoiseGo_keys (noise : Nat → ℚ) (l : List (String × PVal)) :
    ∀ i, (addDPNoiseGo noise l i).map Prod.fst = l.map Prod.fst := by
  induction l with
  | nil => intro i; rfl
  | cons kv rest ih =>
    intro i
    obtain ⟨k, v⟩ := kv
    cases v <;> simp [addDPNoiseGo, ih]

lemma addDPNoiseGo_frame (noise : Nat → ℚ) (l : List (String × PVal)) :
    ∀ i, ∀ pr ∈ l.zip (addDPNoiseGo noise l i),
      pr.1.1 = pr.2.1 ∧ ∀ s, pr.1.2 = PVal.other s → pr.2.2 = PVal.other s := by
  induction l with
  | nil => intro i pr hpr; simp at hpr
  | cons kv rest ih =>
    intro i pr hpr
    obtain ⟨k, v⟩ := kv
    cases v with
    | num q =>
      simp only [addDPNoiseGo, List.zip_cons_cons, List.mem_cons] at hpr
      rcases hpr with rfl | hmem
      · exact ⟨rfl, fun s hs => by simp at hs⟩
      · exact ih (i + 1) pr hmem
    | vec l0 =>
      simp only [addDPNoiseGo, List.zip_cons_cons, List.mem_cons] at hpr
      rcases hpr with rfl | hmem
      · exact ⟨rfl, fun s hs => by simp at hs⟩
      · exact ih (i + l0.length) pr hmem
    | other s0 =>
      simp only [addDPNoiseGo, List.zip_cons_cons, List.mem_cons] at hpr
      rcases hpr with rfl | hmem
      · exact ⟨rfl, fun s hs => hs⟩
      · exact ih i pr hmem

/-- C10: `add_differential_privacy_noise` returns a mapping with exactly
the input's keys (in order), and every value that is neither a numeric
scalar nor a list (the `other` values, e.g. strings) is carried over
unchanged — only numeric scalars and list elements are perturbed. -/
theorem add_dp_noise_frame (p : Params) (noise : Nat → ℚ) :
    (addDPNoise p noise).map Prod.fst = p.map Prod.fst ∧
    ∀ pr ∈ p.zip (addDPNoise p noise),
      pr.1.1 = pr.2.1 ∧ ∀ s, pr.1.2 = PVal.other s → pr.2.2 = PVal.other s :=
  ⟨addDPNoiseGo_keys noise p 0, addDPNoiseGo_frame noise p 0⟩

def dpExample : Params := [("w", PVal.num 1), ("tag", PVal.other "model-A")]

/-- Witness for `add_dp_noise_frame` on a concrete mapping holding a
numeric and a non-numeric value. -/
theorem add_dp_noise_frame_witness :
    (addDPNoise dpExample (fun _ => 1)).map Prod.fst = ["w", "tag"] ∧
    (("tag", PVal.other "model-A"),
      ("tag", PVal.other "model-A")).2.2 = PVal.other "model-A" := by
  constructor
  · have h := (add_dp_noise_frame dpExample (fun _ => 1)).1
    simpa [dpExample] using h
  · exact ((add_dp_noise_frame dpExample (fun _ => 1)).2
      (("tag", PVal.other "model-A"), ("tag", PVal.other "model-A"))
      (by simp [dpExample, addDPNoise, addDPNoiseGo])).2 "model-A" rfl

/-! ### `secure_aggregate`: which keys are aggregated, and to what -/

/-- The keys of the first payload — the only keys
`_average_parameters` iterates over. -/
def firstKeys (psList : List Params) : List String := (psList.headD []).map Prod.fst

def allNums : List PVal → Option (List ℚ)
  | [] => some []
  | .num q :: rest => (allNums rest).map (q :: ·)
  | _ :: _ => none

/-- Per-key homogeneity: the collected values are all numeric scalars,
or all lists of one common length (what `sum`/`np.mean` accept). -/
def homogeneous (vals : List PVal) : Bool :=
  match allNums vals with
  | some _ => true
  | none =>
    match allVecs vals with
    | some rows => rows.all (fun r => r.length == (rows.headD []).length)
    | none => false

/-- Follows the spec's words: the arithmetic mean of a parameter over
exactly the payloads that contain it — scalar mean for scalars,
pointwise mean for vectors. -/
def specMean (vals : List PVal) : PVal :=
  match allNums vals with
  | some qs => .num (sumQ qs / qs.length)
  | none =>
    match allVecs vals with
    | some rows => .vec (vecMean rows (rows.headD []).length)
    | none => .other "unspecified"

/-- Follows the spec's words, with the key set corrected to the first
payload's keys: each such key maps to the mean over the payloads
containing it. -/
def specAggregate (psList : List Params) : Params :=
  (firstKeys psList).map (fun k => (k, specMean (collectVals k psList)))

lemma allNums_eq (vals : List PVal) :
    ∀ qs, allNums vals = some qs → vals = qs.map PVal.num := by
  induction vals with
  | nil =>
    intro qs h
    simp [allNums] at h
    subst h
    rfl
  | cons v t ih =>
    intro qs h
    cases v with
    | num q =>
      simp only [allNums] at h
      cases ht : allNums t with
      | none => rw [ht] at h; simp at h
      | some qs' =>
        rw [ht] at h
        simp only [Option.map_some'] at h
        have h2 := Option.some.inj h
        subst h2
        rw [List.map_cons, ← ih qs' ht]
    | vec l => simp [allNums] at h
    | other s => simp [allNums] at h

lemma allVecs_eq (vals : List PVal) :
    ∀ rows, allVecs vals = some rows → vals = rows.map PVal.vec := by
  induction vals with
  | nil =>
    intro rows h
    simp [allVecs] at h
    subst h
    rfl
  | cons v t ih =>
    intro rows h
    cases v with
    | num q => simp [allVecs] at h
    | vec l =>
      simp only [allVecs] at h
      cases ht : allVecs t with
      | none => rw [ht] at h; simp at h
      | some rows' =>
        rw [ht] at h
        simp only [Option.map_some'] at h
        have h2 := Option.some.inj h
        subst h2
        rw [List.map_cons, ← ih rows' ht]
    | other s => simp [allVecs] at h

lemma allVecs_map (rows : List (List ℚ)) : allVecs (rows.map PVal.vec) = some rows := by
  induction rows with
  | nil => rfl
  | cons r t ih => simp [allVecs, ih]

lemma any_isOtherB_nums (qs : List ℚ) : (qs.map PVal.num).any isOtherB = false := by
  induction qs with
  | nil => rfl
  | cons q t ih => simp [isOtherB, ih]

lemma any_isOtherB_vecs (rows : List (List ℚ)) :
    (rows.map PVal.vec).any isOtherB = false := by
  induction rows with
  | nil => rfl
  | cons r t ih => simp [isOtherB, ih]

lemma foldl_pyAdd_nums (qs : List ℚ) :
    ∀ a : ℚ, (qs.map PVal.num).foldl (fun acc v => acc.bind (fun s => pyAdd s v))
        (Except.ok (PVal.num a)) = .ok (.num (a + sumQ qs)) := by
  induction qs with
  | nil => intro a; simp [sumQ]
  | cons q t ih =>
    intro a
    rw [List.map_cons, List.foldl_cons]
    have hstep : ((Except.ok (PVal.num a)).bind fun s => pyAdd s (PVal.num q)) =
        Except.ok (PVal.num (a + q)) := rfl
    rw [hstep, ih (a + q)]
    have harith : a + q + sumQ t = a + sumQ (q :: t) := by
      simp [sumQ]
      ring
    rw [harith]

lemma averageOne_nums (qs : List ℚ) (hq : qs ≠ []) :
    averageOne (qs.map PVal.num) = .ok (.num (sumQ qs / qs.length)) := by
  cases qs with
  | nil => exact absurd rfl hq
  | cons q t =>
    have hfold := foldl_pyAdd_nums (q :: t) 0
    have hred : averageOne ((q :: t).map PVal.num) =
        match ((q :: t).map PVal.num).foldl (fun acc v => acc.bind (fun s => pyAdd s v))
            (Except.ok (PVal.num 0)) with
        | .ok s => .ok (pyDivN s ((q :: t).map PVal.num).length)
        | .error e => .error e := rfl
    rw [hred, hfold]
    simp [pyDivN]

lemma averageOne_vecs (rows : List (List ℚ)) (hne : rows ≠ [])
    (hrect : rows.all (fun r => r.length == (rows.headD []).length) = true) :
    averageOne (rows.map PVal.vec) = .ok (.vec (vecMean rows (rows.headD []).length)) := by
  cases rows with
  | nil => exact absurd rfl hne
  | cons r0 rest =>
    simp only [List.map_cons, averageOne, allVecs_map]
    have h2 : allVecs (rest.map PVal.vec) = some rest := allVecs_map rest
    simp only [allVecs, h2, Option.map_some']
    simp only [List.headD_cons] at hrect
    simp [hrect]

lemma find?_of_mem_keys (l : Params) (k : String) (hk : k ∈ l.map Prod.fst) :
    ∃ kv, l.find? (fun kv => kv.1 == k) = some kv := by
  induction l with
  | nil => simp at hk
  | cons kv t ih =>
    by_cases h : kv.1 == k
    · exact ⟨kv, by simp [List.find?_cons, h]⟩
    · rw [List.map_cons] at hk
      rcases List.mem_cons.1 hk with h1 | h1
      · exact absurd (by simp [h1]) h
      · rcases ih h1 with ⟨kv', hkv'⟩
        exact ⟨kv', by simp [List.find?_cons, h, hkv']⟩

lemma avgKeys_cons_ok {psList : List Params} {key : String} {rest : List String}
    {v0 : PVal} {vtl : List PVal} {av : PVal} {tail : Params}
    (hv : collectVals key psList = v0 :: vtl)
    (hany : (v0 :: vtl).any isOtherB = false)
    (hav : averageOne (v0 :: vtl) = .ok av)
    (htl : avgKeys psList rest = .ok tail) :
    avgKeys psList (key :: rest) = .ok ((key, av) :: tail) := by
  simp only [avgKeys, hv, hany, Bool.false_eq_true, if_false, hav, htl]

/-- The per-key loop of `_average_parameters` produces, for each key it
visits whose collected values are homogeneous, exactly the spec-side
mean over the payloads containing that key. -/
lemma avgKeys_spec (psList : List Params) (keys : List String)
    (h : ∀ k ∈ keys, collectVals k psList ≠ [] ∧ homogeneous (collectVals k psList) = true) :
    avgKeys psList keys =
      .ok (keys.map (fun k => (k, specMean (collectVals k psList)))) := by
  induction keys with
  | nil => rfl
  | cons key rest ih =>
    obtain ⟨hne, hhom⟩ := h key (List.mem_cons_self _ _)
    have ihr := ih (fun k hk => h k (List.mem_cons_of_mem _ hk))
    rw [List.map_cons]
    cases hnum : allNums (collectVals key psList) with
    | some qs =>
      have hv := allNums_eq _ qs hnum
      have hq : qs ≠ [] := by
        intro h0
        rw [h0] at hv
        exact hne (by simpa using hv)
      have hmean : specMean (collectVals key psList) = .num (sumQ qs / qs.length) := by
        simp [specMean, hnum]
      obtain ⟨q0, qs', rfl⟩ : ∃ a b, qs = a :: b := by
        cases qs with
        | nil => exact absurd rfl hq
        | cons a b => exact ⟨a, b, rfl⟩
      have hv' : collectVals key psList = PVal.num q0 :: qs'.map PVal.num := by
        simpa using hv
      have hav : averageOne (PVal.num q0 :: qs'.map PVal.num) =
          .ok (.num (sumQ (q0 :: qs') / (q0 :: qs').length)) := by
        simpa using averageOne_nums (q0 :: qs') (by simp)
      have hany : (PVal.num q0 :: qs'.map PVal.num).any isOtherB = false := by
        simpa using any_isOtherB_nums (q0 :: qs')
      rw [avgKeys_cons_ok hv' hany hav ihr, hmean]
    | none =>
      cases hvec : allVecs (collectVals key psList) with
      | some rows =>
        simp only [homogeneous, hnum, hvec] at hhom
        have hv := allVecs_eq _ rows hvec
        have hrne : rows ≠ [] := by
          intro h0
          rw [h0] at hv
          exact hne (by simpa using hv)
        have hmean : specMean (collectVals key psList) =
            .vec (vecMean rows (rows.headD []).length) := by
          simp [specMean, hnum, hvec]
        obtain ⟨r0, rs, rfl⟩ : ∃ a b, rows = a :: b := by
          cases rows with
          | nil => exact absurd rfl hrne
          | cons a b => exact ⟨a, b, rfl⟩
        have hv' : collectVals key psList = PVal.vec r0 :: rs.map PVal.vec := by
          simpa using hv
        have hav : averageOne (PVal.vec r0 :: rs.map PVal.vec) =
            .ok (.vec (vecMean (r0 :: rs) ((r0 :: rs).headD []).length)) := by
          simpa using averageOne_vecs (r0 :: rs) (by simp) hhom
        have hany : (PVal.vec r0 :: rs.map PVal.vec).any isOtherB = false := by
          simpa using any_isOtherB_vecs (r0 :: rs)
        rw [avgKeys_cons_ok hv' hany hav ihr, hmean]
      | none =>
        exfalso
        simp [homogeneous, hnum, hvec] at hhom

lemma decryptAll_encryptAllGo (st : SMPCState) (ps : List Params) :
    ∀ i, decryptAll st (encryptAllGo st ps i) = .ok ps := by
  induction ps with
  | nil => intro i; rfl
  | cons p t ih =>
    intro i
    simp [encryptAllGo, decryptAll, decryptParameters, encryptParameters, loads_dumps, ih]

def paramsA : Params := [("a", PVal.num 1)]

def paramsB : Params := [("b", PVal.num 2)]

/-- C2, counterexample: aggregating the encrypted forms of
`{"a": 1.0}` and `{"b": 2.0}` yields `{"a": 1.0}` — the name `"b"`,
although present in one payload, is absent from the result, because
`_average_parameters` iterates only over `parameters_list[0].keys()`.
This refutes "for every parameter name present in at least one
payload". -/
theorem aggregate_drops_nonfirst_keys :
    "b" ∈ paramsB.map Prod.fst ∧
    (secureAggregate ⟨0⟩ (encryptAll ⟨0⟩ [paramsA, paramsB])).2 =
      .ok [("a", PVal.num 1)] := by
  constructor
  · simp [paramsB]
  · have hdec : decryptAll ⟨0⟩ (encryptAll ⟨0⟩ [paramsA, paramsB]) = .ok [paramsA, paramsB] :=
      decryptAll_encryptAllGo ⟨0⟩ [paramsA, paramsB] 0
    have h1 : (secureAggregate ⟨0⟩ (encryptAll ⟨0⟩ [paramsA, paramsB])).2 =
        averageParameters [paramsA, paramsB] := by
      simp only [secureAggregate]
      rw [show (encryptAll ⟨0⟩ [paramsA, paramsB]).isEmpty = false from rfl]
      simp only [Bool.false_eq_true, if_false, hdec]
    have h2 : averageParameters [paramsA, paramsB] = avgKeys [paramsA, paramsB] ["a"] := rfl
    have hcv : collectVals "a" [paramsA, paramsB] = [PVal.num 1] := by decide
    have hav := averageOne_nums [1] (by simp)
    simp only [List.map_cons, List.map_nil] at hav
    have hstep := avgKeys_cons_ok hcv rfl hav
      (show avgKeys [paramsA, paramsB] [] = .ok [] from rfl)
    rw [h1, h2, hstep]
    norm_num [sumQ]

/-- C2, amended: for every non-empty batch of payloads that all decrypt
successfully (here: produced by the engine's own `encrypt`), whose
per-name collected values are homogeneous (all scalars, or all lists of
one length — otherwise numpy raises), `secure_aggregate` returns the
mapping whose keys are exactly the FIRST payload's parameter names, each
bound to the arithmetic mean of that parameter over exactly the payloads
that contain it (a name absent from a contributor is skipped for that
contributor, not treated as zero); names absent from the first payload
are dropped even when present in later payloads.  The concrete instance
`{"w": 1.0}, {"w": 2.0}, {"w": 3.0} ↦ {"w": 2.0}` is the witness
theorem. -/
theorem secure_aggregate_first_payload_mean (st : SMPCState) (psList : List Params)
    (hne : psList ≠ [])
    (hhom : ∀ k ∈ firstKeys psList, homogeneous (collectVals k psList) = true) :
    (secureAggregate st (encryptAll st psList)).2 = .ok (specAggregate psList) := by
  obtain ⟨first, rest, rfl⟩ : ∃ f r, psList = f :: r := by
    cases psList with
    | nil => exact absurd rfl hne
    | cons f r => exact ⟨f, r, rfl⟩
  have hlne : (encryptAll st (first :: rest)).isEmpty = false := rfl
  have hdec := decryptAll_encryptAllGo st (first :: rest) 0
  simp only [secureAggregate, hlne, Bool.false_eq_true, if_false, encryptAll, hdec]
  have hkeys : ∀ k ∈ firstKeys (first :: rest),
      collectVals k (first :: rest) ≠ [] ∧
        homogeneous (collectVals k (first :: rest)) = true := by
    intro k hk
    refine ⟨?_, hhom k hk⟩
    rcases find?_of_mem_keys first k (by simpa [firstKeys] using hk) with ⟨kv, hkv⟩
    simp [collectVals, hkv]
  have havg := avgKeys_spec (first :: rest) (first.map Prod.fst) hkeys
  rw [show averageParameters (first :: rest) =
      avgKeys (first :: rest) (first.map Prod.fst) from rfl, havg]
  rfl

def paramsW1 : Params := [("w", PVal.num 1)]

def paramsW2 : Params := [("w", PVal.num 2)]

def paramsW3 : Params := [("w", PVal.num 3)]

/-- Witness for `secure_aggregate_first_payload_mean`: aggregating the
encrypted forms of `{"w": 1.0}`, `{"w": 2.0}`, `{"w": 3.0}` yields
`{"w": 2.0}` exactly. -/
theorem secure_aggregate_first_payload_mean_witness :
    (secureAggregate ⟨9⟩ (encryptAll ⟨9⟩ [paramsW1, paramsW2, paramsW3])).2 =
      .ok [("w", PVal.num 2)] := by
  have h := secure_aggregate_first_payload_mean ⟨9⟩ [paramsW1, paramsW2, paramsW3]
    (by simp)
    (by
      intro k hk
      simp [firstKeys, paramsW1] at hk
      subst hk
      rfl)
  rw [h]
  have hagg : specAggregate [paramsW1, paramsW2, paramsW3] =
      [("w", specMean (collectVals "w" [paramsW1, paramsW2, paramsW3]))] := rfl
  have hcv : collectVals "w" [paramsW1, paramsW2, paramsW3] =
      [PVal.num 1, PVal.num 2, PVal.num 3] := by decide
  have hn : allNums [PVal.num 1, PVal.num 2, PVal.num 3] = some [1, 2, 3] := rfl
  rw [hagg, hcv]
  simp only [specMean, hn]
  norm_num [sumQ]

end SecureHealth
